import Mathlib

/-!
Shallow embedding of the loglens incremental tail/watch engine
(`src/tail.ts`, `src/watcher.ts`).

File contents are modelled as `List Char`; a file's size is the length of
its content.  JavaScript's `buffer.split('\n')` is modelled by `splitOnNl`,
`Array.prototype.slice(-n)` by `sliceNeg`, and `line.trim() !== ''` by
`!(isWsOnly line)`.  The asynchronous read stream used by `readNewContent`
is modelled by an explicit read-behaviour oracle (`ReadBehavior`): the list
of data chunks the stream delivers, followed by either a clean `end` or an
`error`.
-/

set_option autoImplicit false

/-- JavaScript `s.split('\n')`: the (always non-empty) list of fragments of
`s` between newline characters. -/
def splitOnNl : List Char → List (List Char)
  | [] => [[]]
  | c :: rest =>
    if c = '\n' then [] :: splitOnNl rest
    else
      match splitOnNl rest with
      | [] => [[c]]
      | p :: ps => (c :: p) :: ps

/-- JavaScript `line.trim() === ''`: the line is empty or consists only of
whitespace characters. -/
def isWsOnly (l : List Char) : Bool :=
  l.all (fun c => c.isWhitespace)

/-- JavaScript `arr.slice(-n)`; note `slice(-0)` is `slice(0)`, the whole
array. -/
def sliceNeg {α : Type} (n : Nat) (xs : List α) : List α :=
  if n = 0 then xs else xs.drop (xs.length - n)

/-- The fragment of `s` strictly after its last `'\n'` (all of `s` when it
has none): the longest newline-free suffix. -/
def trailingFragment (s : List Char) : List Char :=
  (s.reverse.takeWhile (fun c => c != '\n')).reverse

/-- The line-splitting step shared by `LogTailer.readNewContent`
(`tail.ts:209-214`) and `LogWatcher.readNewContent` (`watcher.ts:137-142`):
`buffer += chunk; lines = buffer.split('\n'); buffer = lines.pop() || ''`.
Returns the complete lines (all parts but the last) and the new carry-over
(the last part). -/
def splitStep (carryOver newChunk : List Char) : List (List Char) × List Char :=
  let parts := splitOnNl (carryOver ++ newChunk)
  (parts.dropLast, parts.getLastD [])

/-- Feeding a sequence of chunks through `splitStep`, threading the
carry-over from each call to the next; returns all complete lines extracted
(in order) and the final carry-over. -/
def feedChunks (carryOver : List Char) (chunks : List (List Char)) :
    List (List Char) × List Char :=
  match chunks with
  | [] => ([], carryOver)
  | c :: cs =>
    let r := splitStep carryOver c
    let rest := feedChunks r.2 cs
    (r.1 ++ rest.1, rest.2)

/-- Events a single file's processing can emit (file identity, line numbers
and timestamps are metadata irrelevant to the claims and are omitted). -/
inductive Event where
  | line (content : List Char)
  | error
  | fileRemoved
deriving DecidableEq

/-- Behaviour of one `fs.createReadStream` read: the data chunks delivered,
followed by a clean `end` (`success`) or an `error` (`failure`). -/
inductive ReadBehavior where
  | success (chunks : List (List Char))
  | failure (chunks : List (List Char))
deriving DecidableEq

/-- The stream handlers of `readNewContent` (`tail.ts:209-243`,
`watcher.ts:137-168`): each `data` chunk is appended to the buffer, split
on newlines, the last fragment kept as the new buffer, and every complete
line with non-whitespace content emitted; on `end` the remaining buffer is
emitted if it has non-whitespace content; on `error` an error event is
emitted instead. -/
def runStream (buffer : List Char) (chunks : List (List Char)) (ok : Bool) :
    List Event :=
  match chunks with
  | [] =>
    if ok then
      if isWsOnly buffer then [] else [Event.line buffer]
    else [Event.error]
  | c :: cs =>
    let parts := splitOnNl (buffer ++ c)
    (parts.dropLast.filter (fun l => !(isWsOnly l))).map Event.line
      ++ runStream (parts.getLastD []) cs ok

/-- Events produced by one `readNewContent` call (`tail.ts:194-244`,
`watcher.ts:128-169`; the two bodies emit lines identically), given the
stream's behaviour.  The stream starts with an empty buffer. -/
def readNewContent (rb : ReadBehavior) : List Event :=
  match rb with
  | .success chunks => runStream [] chunks true
  | .failure chunks => runStream [] chunks false

/-- The byte range `[start, stop)` of a file, as handed to
`fs.createReadStream(path, { start, end: stop - 1 })` (Node's `end` option
is inclusive). -/
def readRange (content : List Char) (start stop : Nat) : List Char :=
  (content.drop start).take (stop - start)

/-- Result of one per-file change check: the stored position after the
check (`none` when the file's map entry was deleted), the byte range passed
to `readNewContent` (`none` when no read happened), and the events
emitted. -/
structure StepResult where
  newPos : Option Nat
  readCall : Option (Nat × Nat)
  events : List Event
deriving DecidableEq

/-- Body of `LogTailer.checkForNewContent` (`tail.ts:164-192`) for a single
tracked file with stored position `lastPosition`.  `contentOpt` is the
file's current content, `none` when `statSync` fails with `ENOENT` (the
file was deleted, so its entry is dropped and `fileRemoved` emitted).
On truncation (`currentSize < lastPosition`) the position is set to 0 and
`[0, currentSize)` is read; on growth `[lastPosition, currentSize)` is read
and the position set to `currentSize`; otherwise nothing happens. -/
def checkForNewContent (contentOpt : Option (List Char)) (lastPosition : Nat)
    (rb : ReadBehavior) : StepResult :=
  match contentOpt with
  | none => ⟨none, none, [Event.fileRemoved]⟩
  | some content =>
    let currentSize := content.length
    if currentSize < lastPosition then
      ⟨some 0, some (0, currentSize), readNewContent rb⟩
    else if currentSize > lastPosition then
      ⟨some currentSize, some (lastPosition, currentSize), readNewContent rb⟩
    else ⟨some lastPosition, none, []⟩

/-- `LogWatcher.handleFileChange` (`watcher.ts:89-112`) for a single file.
`storedPos` is the `filePositions` map entry (`getD 0` models
`this.filePositions.get(p) || 0`); `contentOpt = none` models a throwing
`statSync`, caught and reported as an error.  On truncation the position is
set to 0 and the handler returns early; otherwise the position is set to
`stats.size` after an optional growth read. -/
def handleFileChange (contentOpt : Option (List Char)) (storedPos : Option Nat)
    (rb : ReadBehavior) : StepResult :=
  match contentOpt with
  | none => ⟨storedPos, none, [Event.error]⟩
  | some content =>
    let lastPosition := storedPos.getD 0
    let currentSize := content.length
    if currentSize < lastPosition then
      ⟨some 0, some (0, currentSize), readNewContent rb⟩
    else if currentSize > lastPosition then
      ⟨some currentSize, some (lastPosition, currentSize), readNewContent rb⟩
    else ⟨some currentSize, none, []⟩

/-- Start offset of the bounded suffix read by `readLastLines`
(`tail.ts:129-131`): `Math.max(0, fileSize - Math.min(numLines * 120,
fileSize))`. -/
def suffixStart (content : List Char) (numLines : Nat) : Nat :=
  max 0 (content.length - min (numLines * 120) content.length)

/-- `LogTailer.readLastLines` (`tail.ts:115-152`): returns `[]` for an
empty file; otherwise reads the suffix starting at `suffixStart`, splits it
on newlines, keeps the parts with non-whitespace content, and returns the
last `numLines` of them (`lines.slice(-numLines)`). -/
def readLastLines (content : List Char) (numLines : Nat) : List (List Char) :=
  if content.length = 0 then []
  else
    let buffer := content.drop (suffixStart content numLines)
    let lines := (splitOnNl buffer).filter (fun l => !(isWsOnly l))
    sliceNeg numLines lines

/-- `LogTailer.tail` up to the initial-lines phase (`tail.ts:38-45`): the
filesystem is a map from path to content; a missing path throws
`File not found`, an existing one yields `readLastLines`. -/
def tail (fsys : String → Option (List Char)) (filePath : String)
    (lines : Nat) : Except String (List (List Char)) :=
  match fsys filePath with
  | none => Except.error ("File not found: " ++ filePath)
  | some content => Except.ok (readLastLines content lines)

/-- State of a `LogWatcher` relevant to file tracking: the `files` array,
the set of paths handed to chokidar (`watchSet`), and the `filePositions`
map (as an association list). -/
structure WatcherState where
  files : List String
  watchSet : List String
  filePositions : List (String × Nat)
deriving DecidableEq

/-- The `LogWatcher` constructor (`watcher.ts:25-45`): resolves every input
path and watches the resulting list; no deduplication is performed. -/
def mkWatcher (resolve : String → String) (fs : List String) : WatcherState :=
  ⟨fs.map resolve, fs.map resolve, []⟩

/-- `LogWatcher.addFile` (`watcher.ts:171-177`): pushes the resolved path
and watches it, unless it is already in `files`. -/
def addFile (resolve : String → String) (s : WatcherState) (p0 : String) :
    WatcherState :=
  let p := resolve p0
  if s.files.contains p then s
  else { s with files := s.files ++ [p], watchSet := s.watchSet ++ [p] }

/-- `LogWatcher.removeFile` (`watcher.ts:179-187`): if the resolved path is
in `files`, removes its first occurrence (`indexOf`/`splice`), unwatches it
and deletes its position entry; otherwise does nothing. -/
def removeFile (resolve : String → String) (s : WatcherState) (p0 : String) :
    WatcherState :=
  let p := resolve p0
  if s.files.contains p then
    { files := s.files.erase p,
      watchSet := s.watchSet.filter (fun q => q ≠ p),
      filePositions := s.filePositions.filter (fun e => e.1 ≠ p) }
  else s

/-- `LogWatcher.getFiles` (`watcher.ts:189-191`): a copy of `files`. -/
def getFiles (s : WatcherState) : List String :=
  s.files

/-! ## Properties of the line splitter -/

theorem splitOnNl_ne_nil (s : List Char) : splitOnNl s ≠ [] := by
  induction s with
  | nil => simp [splitOnNl]
  | cons c rest ih =>
    simp only [splitOnNl]
    split
    · simp
    · split
      · simp
      · simp

theorem splitOnNl_cons_nl (s : List Char) :
    splitOnNl ('\n' :: s) = [] :: splitOnNl s := by
  simp [splitOnNl]

theorem splitOnNl_cons_ne (c : Char) (s : List Char) (hc : c ≠ '\n') :
    splitOnNl (c :: s) = (splitOnNl s).modifyHead (fun p => c :: p) := by
  cases hs : splitOnNl s with
  | nil => exact absurd hs (splitOnNl_ne_nil s)
  | cons p ps => simp [splitOnNl, if_neg hc, hs]

theorem getLastD_irrel {α : Type} (x : α) (xs : List α) (a b : α) :
    (x :: xs).getLastD a = (x :: xs).getLastD b := by
  rw [List.getLastD_cons, List.getLastD_cons]

theorem getLastD_append {α : Type} (X Y : List α) (d : α) (h : Y ≠ []) :
    (X ++ Y).getLastD d = Y.getLastD d := by
  induction X generalizing d with
  | nil => rfl
  | cons a X ih =>
    cases Y with
    | nil => exact absurd rfl h
    | cons y ys =>
      rw [List.cons_append, List.getLastD_cons, ih a]
      exact getLastD_irrel y ys a d

theorem splitOnNl_modifyHead (x : List Char) (b : List Char) (h : '\n' ∉ x) :
    splitOnNl (x ++ b) = (splitOnNl b).modifyHead (fun p => x ++ p) := by
  induction x with
  | nil =>
    cases hb : splitOnNl b with
    | nil => exact absurd hb (splitOnNl_ne_nil b)
    | cons p ps => simp [hb]
  | cons c x ih =>
    have hc : c ≠ '\n' := fun hc => h (hc ▸ List.mem_cons_self c x)
    have hx : '\n' ∉ x := fun hm => h (List.mem_cons_of_mem _ hm)
    rw [List.cons_append, splitOnNl_cons_ne c (x ++ b) hc, ih hx]
    cases hb : splitOnNl b with
    | nil => exact absurd hb (splitOnNl_ne_nil b)
    | cons p ps => simp

theorem splitOnNl_of_no_nl (s : List Char) (h : '\n' ∉ s) : splitOnNl s = [s] := by
  have := splitOnNl_modifyHead s [] h
  simpa [splitOnNl] using this

theorem noNl_getLastD (s : List Char) : '\n' ∉ (splitOnNl s).getLastD [] := by
  induction s with
  | nil => simp [splitOnNl]
  | cons c rest ih =>
    by_cases hc : c = '\n'
    · subst hc
      rw [splitOnNl_cons_nl, List.getLastD_cons]
      exact ih
    · cases hP : splitOnNl rest with
      | nil => exact absurd hP (splitOnNl_ne_nil rest)
      | cons p ps =>
        rw [hP] at ih
        rw [splitOnNl_cons_ne c rest hc, hP]
        cases ps with
        | nil =>
          simp only [List.modifyHead, List.getLastD_cons, List.getLastD_nil] at ih ⊢
          simp only [List.mem_cons, not_or]
          exact ⟨fun e => hc e.symm, ih⟩
        | cons q qs =>
          simp only [List.modifyHead, List.getLastD_cons] at ih ⊢
          exact ih

theorem splitOnNl_append (a b : List Char) :
    splitOnNl (a ++ b) =
      (splitOnNl a).dropLast ++ splitOnNl ((splitOnNl a).getLastD [] ++ b) := by
  induction a with
  | nil => simp [splitOnNl]
  | cons c rest ih =>
    by_cases hc : c = '\n'
    · subst hc
      cases hP : splitOnNl rest with
      | nil => exact absurd hP (splitOnNl_ne_nil rest)
      | cons p ps =>
        rw [hP] at ih
        rw [List.cons_append, splitOnNl_cons_nl, splitOnNl_cons_nl, ih, hP]
        simp [List.getLastD_cons]
    · cases hP : splitOnNl rest with
      | nil => exact absurd hP (splitOnNl_ne_nil rest)
      | cons p ps =>
        rw [hP] at ih
        rw [List.cons_append, splitOnNl_cons_ne c (rest ++ b) hc, ih,
          splitOnNl_cons_ne c rest hc, hP]
        cases ps with
        | nil =>
          simp only [List.modifyHead, List.dropLast_single, List.nil_append,
            List.getLastD_cons, List.getLastD_nil]
          rw [List.cons_append, splitOnNl_cons_ne c (p ++ b) hc]
          rfl
        | cons p2 ps2 =>
          simp only [List.modifyHead, List.dropLast_cons₂, List.getLastD_cons]
          rfl

theorem feedChunks_spec (chunks : List (List Char)) (carry : List Char)
    (h : '\n' ∉ carry) :
    feedChunks carry chunks =
      ((splitOnNl (carry ++ chunks.flatten)).dropLast,
        (splitOnNl (carry ++ chunks.flatten)).getLastD []) := by
  induction chunks generalizing carry with
  | nil =>
    simp [feedChunks, splitOnNl_of_no_nl carry h]
  | cons c cs ih =>
    have hlast : '\n' ∉ (splitOnNl (carry ++ c)).getLastD [] := noNl_getLastD _
    have hjoin : carry ++ (c :: cs).flatten = (carry ++ c) ++ cs.flatten := by
      simp [List.flatten]
    rw [feedChunks, hjoin, splitOnNl_append (carry ++ c) cs.flatten]
    simp only [splitStep, ih _ hlast]
    rw [List.dropLast_append_of_ne_nil _ (splitOnNl_ne_nil _),
      getLastD_append _ _ _ (splitOnNl_ne_nil _)]

theorem lastFrag_trailing (s : List Char) :
    (splitOnNl s).getLastD [] = trailingFragment s := by
  induction s using List.reverseRecOn with
  | nil => rfl
  | append_singleton s c ih =>
    rw [splitOnNl_append s [c],
      getLastD_append _ _ _ (splitOnNl_ne_nil _),
      splitOnNl_modifyHead _ [c] (noNl_getLastD s)]
    by_cases hc : c = '\n'
    · subst hc
      simp [splitOnNl, trailingFragment]
    · have h1 : splitOnNl [c] = [[c]] := by
        simp [splitOnNl, if_neg hc]
      rw [h1]
      simp only [List.modifyHead, List.getLastD_cons, List.getLastD_nil]
      unfold trailingFragment at ih ⊢
      rw [List.reverse_append, List.reverse_singleton, List.singleton_append,
        List.takeWhile_cons]
      have hcb : (c != '\n') = true := by
        simpa using hc
      rw [hcb]
      simp only [if_true]
      rw [List.reverse_cons, ih]

/-! ## Properties of the stream handlers -/

theorem runStream_line_nonws (chunks : List (List Char)) (buffer : List Char)
    (ok : Bool) (l : List Char) (h : Event.line l ∈ runStream buffer chunks ok) :
    isWsOnly l = false := by
  induction chunks generalizing buffer with
  | nil =>
    simp only [runStream] at h
    split at h
    · split at h
      · simp at h
      · rename_i hb
        rw [List.mem_singleton] at h
        cases h
        exact Bool.not_eq_true _ ▸ eq_false_of_ne_true hb
    · simp at h
  | cons c cs ih =>
    simp only [runStream, List.mem_append] at h
    rcases h with h | h
    · rcases List.mem_map.mp h with ⟨x, hx, hxe⟩
      cases hxe
      have := (List.mem_filter.mp hx).2
      simpa using this
    · exact ih _ h

theorem runStream_failure_error (chunks : List (List Char)) (buffer : List Char) :
    Event.error ∈ runStream buffer chunks false := by
  induction chunks generalizing buffer with
  | nil => simp [runStream]
  | cons c cs ih =>
    simp only [runStream, List.mem_append]
    exact Or.inr (ih _)

theorem readNewContent_line_nonws (rb : ReadBehavior) (l : List Char)
    (h : Event.line l ∈ readNewContent rb) : isWsOnly l = false := by
  cases rb with
  | success chunks => exact runStream_line_nonws chunks [] true l h
  | failure chunks => exact runStream_line_nonws chunks [] false l h

theorem sliceNeg_subset {α : Type} (n : Nat) (xs : List α) : sliceNeg n xs ⊆ xs := by
  unfold sliceNeg
  split
  · exact fun a ha => ha
  · exact List.drop_subset _ _

theorem sliceNeg_length_le {α : Type} (n : Nat) (xs : List α) (hn : n ≠ 0) :
    (sliceNeg n xs).length ≤ n := by
  unfold sliceNeg
  rw [if_neg hn, List.length_drop]
  omega

/-! ## The claims -/

/-- C3: for every sequence of chunks fed through the line-splitting step
with the carry-over threaded from each call to the next, starting from an
empty carry-over, the complete lines extracted over all calls are exactly
the complete lines of splitting the whole concatenation in one call, and
the final carry-over is the trailing fragment of the concatenation after
its last line terminator. -/
theorem splitter_chunking_invariant (chunks : List (List Char)) :
    (feedChunks [] chunks).1 = (splitStep [] chunks.flatten).1 ∧
    (feedChunks [] chunks).2 = trailingFragment chunks.flatten := by
  have h := feedChunks_spec chunks [] (by simp)
  rw [h]
  constructor
  · simp [splitStep]
  · simpa using lastFrag_trailing chunks.flatten

/-- C5: when the observed current size equals the stored cursor, the
poller's per-file check and the watcher's change handler perform no read,
emit no event, and leave the stored cursor unchanged, whatever the read
oracle would have produced. -/
theorem unchanged_no_read_no_event (content : List Char) (rb : ReadBehavior) :
    checkForNewContent (some content) content.length rb =
      ⟨some content.length, none, []⟩ ∧
    handleFileChange (some content) (some content.length) rb =
      ⟨some content.length, none, []⟩ := by
  constructor <;> simp [checkForNewContent, handleFileChange]

/-- C4: with stored cursor 500 and current size 620, both drivers request
exactly the byte range `[500, 620)`, advance the cursor to 620, and their
entire result depends only on the bytes in that range — two contents
agreeing on `[500, 620)` produce identical results, so no byte before
offset 500 is read again. -/
theorem growth_reads_exact_range (c₁ c₂ : List Char)
    (h₁ : c₁.length = 620) (h₂ : c₂.length = 620)
    (hagree : readRange c₁ 500 620 = readRange c₂ 500 620) :
    (checkForNewContent (some c₁) 500
        (ReadBehavior.success [readRange c₁ 500 620])).readCall = some (500, 620) ∧
    (checkForNewContent (some c₁) 500
        (ReadBehavior.success [readRange c₁ 500 620])).newPos = some 620 ∧
    checkForNewContent (some c₁) 500 (ReadBehavior.success [readRange c₁ 500 620])
      = checkForNewContent (some c₂) 500 (ReadBehavior.success [readRange c₂ 500 620]) ∧
    (handleFileChange (some c₁) (some 500)
        (ReadBehavior.success [readRange c₁ 500 620])).readCall = some (500, 620) ∧
    handleFileChange (some c₁) (some 500) (ReadBehavior.success [readRange c₁ 500 620])
      = handleFileChange (some c₂) (some 500) (ReadBehavior.success [readRange c₂ 500 620]) := by
  simp [checkForNewContent, handleFileChange, h₁, h₂, hagree]

/-- Witness for C4 at a concrete 620-byte file. -/
theorem growth_reads_exact_range_witness :
    (checkForNewContent (some (List.replicate 620 'a')) 500
        (ReadBehavior.success [readRange (List.replicate 620 'a') 500 620])).readCall
      = some (500, 620) ∧
    (checkForNewContent (some (List.replicate 620 'a')) 500
        (ReadBehavior.success [readRange (List.replicate 620 'a') 500 620])).newPos
      = some 620 := by
  have h := growth_reads_exact_range (List.replicate 620 'a') (List.replicate 620 'a')
    (by rw [List.length_replicate]) (by rw [List.length_replicate]) rfl
  exact ⟨h.1, h.2.1⟩

/-- C2 (code bug): with stored cursor 500 and current size 80, both drivers
classify the change as a truncation and read the whole current content
`[0, 80)` — but after the processing the stored cursor is 0, not 80: the
truncation branch of `checkForNewContent` (`tail.ts:171-175`) sets the
position to 0 and `continue`s, and `handleFileChange` (`watcher.ts:97-101`)
returns before the `filePositions.set(..., stats.size)` line, so the next
change notice re-reads and re-emits `[0, 80)`. -/
theorem truncation_leaves_cursor_at_zero :
    checkForNewContent (some (List.replicate 80 'a')) 500
        (ReadBehavior.success [List.replicate 80 'a'])
      = ⟨some 0, some (0, 80), [Event.line (List.replicate 80 'a')]⟩ ∧
    handleFileChange (some (List.replicate 80 'a')) (some 500)
        (ReadBehavior.success [List.replicate 80 'a'])
      = ⟨some 0, some (0, 80), [Event.line (List.replicate 80 'a')]⟩ ∧
    (some 0 : Option Nat) ≠ some 80 := by
  refine ⟨by decide, by decide, by decide⟩

/-- C1 counterexample: a delta read whose range ends without a line
terminator (here content `"abc"`, range `[0, 3)`) emits the unterminated
carry-over `"abc"` as a line event in both drivers, although the range
contains no terminator-completed line at all (the split's complete-line
part is empty). -/
theorem readNewContent_flushes_unterminated :
    checkForNewContent (some ['a', 'b', 'c']) 0
        (ReadBehavior.success [['a', 'b', 'c']])
      = ⟨some 3, some (0, 3), [Event.line ['a', 'b', 'c']]⟩ ∧
    handleFileChange (some ['a', 'b', 'c']) (some 0)
        (ReadBehavior.success [['a', 'b', 'c']])
      = ⟨some 3, some (0, 3), [Event.line ['a', 'b', 'c']]⟩ ∧
    (splitOnNl ['a', 'b', 'c']).dropLast = [] := by
  refine ⟨by decide, by decide, by decide⟩

/-- C1 (amended): at end-of-range the remaining carry-over — the trailing
fragment of the range after its last line terminator — IS emitted as a
final line event whenever it contains non-whitespace content; it is
discarded only when it is empty or whitespace-only. -/
theorem end_flush_emits_nonws_carry (data : List Char) :
    (isWsOnly (trailingFragment data) = false →
      runStream [] [data] true =
        ((splitOnNl data).dropLast.filter (fun l => !(isWsOnly l))).map Event.line
          ++ [Event.line (trailingFragment data)]) ∧
    (isWsOnly (trailingFragment data) = true →
      runStream [] [data] true =
        ((splitOnNl data).dropLast.filter (fun l => !(isWsOnly l))).map Event.line) := by
  have hl := lastFrag_trailing data
  rw [List.getLastD_eq_getLast?] at hl
  constructor <;> intro h <;> simp [runStream, hl, h]

/-- Witness for the amended C1: a range ending in the unterminated
fragment `"b"` flushes it; one ending in a whitespace-only fragment
does not. -/
theorem end_flush_emits_nonws_carry_witness :
    runStream [] [['a', '\n', 'b']] true = [Event.line ['a'], Event.line ['b']] ∧
    runStream [] [['a', '\n', ' ']] true = [Event.line ['a']] := by
  constructor
  · rw [(end_flush_emits_nonws_carry ['a', '\n', 'b']).1 (by decide)]
    decide
  · rw [(end_flush_emits_nonws_carry ['a', '\n', ' ']).2 (by decide)]
    decide

set_option maxRecDepth 8192 in
/-- C6 counterexample: for a 121-byte file with no newline and `n = 1`,
the bounded suffix read starts at byte 1 (mid-line), yet the first
fragment of the suffix — here the whole unterminated suffix — is returned
by `readLastLines` instead of being discarded: the code
(`tail.ts:144-147`) splits the suffix and keeps the last `n` non-blank
parts without dropping the leading partial fragment. -/
theorem readLastLines_returns_first_fragment :
    suffixStart (List.replicate 121 'a') 1 = 1 ∧
    readLastLines (List.replicate 121 'a') 1 = [List.replicate 120 'a'] ∧
    (splitOnNl (List.drop 1 (List.replicate 121 'a'))).headD []
      = List.replicate 120 'a' := by
  refine ⟨by decide, by decide, by decide⟩

/-- C6 (amended): `readLastLines` does not discard the leading fragment of
the suffix (it may be returned, as the counterexample shows), but the
other half of the claim holds: the result always contains at most `n`
lines. -/
theorem readLastLines_at_most_n (content : List Char) (n : Nat) :
    (readLastLines content n).length ≤ n := by
  unfold readLastLines
  split
  · simp
  · by_cases hn : n = 0
    · subst hn
      have hs : suffixStart content 0 = content.length := by
        simp [suffixStart]
      rw [hs, List.drop_length]
      simp [splitOnNl, isWsOnly, sliceNeg]
    · exact sliceNeg_length_le n _ hn

/-- C7: starting a tail for a path the filesystem does not contain fails
with a `File not found` error naming that path, and starting a tail for an
existing zero-length file yields an empty list of initial lines. -/
theorem tail_notfound_and_empty (fsys : String → Option (List Char))
    (p : String) (n : Nat) :
    (fsys p = none → tail fsys p n = Except.error ("File not found: " ++ p)) ∧
    (fsys p = some [] → tail fsys p n = Except.ok []) := by
  constructor <;> intro h <;> simp [tail, h, readLastLines]

/-- Witness for C7 on a one-file filesystem. -/
theorem tail_notfound_and_empty_witness :
    tail (fun q => if q = "/a" then some ([] : List Char) else none) "/b" 10
      = Except.error "File not found: /b" ∧
    tail (fun q => if q = "/a" then some ([] : List Char) else none) "/a" 10
      = Except.ok [] := by
  constructor
  · rw [(tail_notfound_and_empty
      (fun q => if q = "/a" then some ([] : List Char) else none) "/b" 10).1
      (by decide)]
    rfl
  · exact (tail_notfound_and_empty
      (fun q => if q = "/a" then some ([] : List Char) else none) "/a" 10).2
      (by decide)

/-- C8 counterexample: a growth delta read of `[0, 5)` that fails
immediately (no chunks delivered, then a stream error) emits an error
event, but the stored cursor is advanced to 5 anyway in both drivers —
`this.files.set(filePath, currentSize)` (`tail.ts:180`) and
`this.filePositions.set(absolutePath, stats.size)` (`watcher.ts:108`) run
unconditionally after the stream is started — so it does not retain the
prior value 0 and the range is never retried. -/
theorem read_failure_advances_cursor :
    checkForNewContent (some ['a', 'b', '\n', 'c', 'd']) 0 (ReadBehavior.failure [])
      = ⟨some 5, some (0, 5), [Event.error]⟩ ∧
    handleFileChange (some ['a', 'b', '\n', 'c', 'd']) (some 0) (ReadBehavior.failure [])
      = ⟨some 5, some (0, 5), [Event.error]⟩ ∧
    (some 5 : Option Nat) ≠ some 0 := by
  refine ⟨by decide, by decide, by decide⟩

/-- C8 (amended): when a delta read of `[pos, currentSize)` fails mid-read,
an error event is emitted, but the stored cursor is advanced to
`currentSize` regardless of the failure (it does not retain its prior
value), in both drivers; the failed range is therefore not retried. -/
theorem read_failure_emits_error_and_advances (content : List Char) (pos : Nat)
    (chunks : List (List Char)) (h : pos < content.length) :
    checkForNewContent (some content) pos (ReadBehavior.failure chunks)
      = ⟨some content.length, some (pos, content.length), runStream [] chunks false⟩ ∧
    Event.error ∈ (checkForNewContent (some content) pos (ReadBehavior.failure chunks)).events ∧
    handleFileChange (some content) (some pos) (ReadBehavior.failure chunks)
      = ⟨some content.length, some (pos, content.length), runStream [] chunks false⟩ := by
  have hnl : ¬ content.length < pos := Nat.not_lt.mpr (Nat.le_of_lt h)
  have h1 : checkForNewContent (some content) pos (ReadBehavior.failure chunks)
      = ⟨some content.length, some (pos, content.length), runStream [] chunks false⟩ := by
    simp [checkForNewContent, readNewContent, hnl, h]
  refine ⟨h1, ?_, by simp [handleFileChange, readNewContent, hnl, h]⟩
  rw [h1]
  exact runStream_failure_error chunks []

/-- Witness for the amended C8: a read of `"x\n"` that delivers one chunk
and then errors emits the line and the error, and the cursor moves to 2. -/
theorem read_failure_emits_error_and_advances_witness :
    checkForNewContent (some ['x', '\n']) 0 (ReadBehavior.failure [['x', '\n']])
      = ⟨some 2, some (0, 2), [Event.line ['x'], Event.error]⟩ ∧
    Event.error ∈ (checkForNewContent (some ['x', '\n']) 0
        (ReadBehavior.failure [['x', '\n']])).events := by
  have h := read_failure_emits_error_and_advances ['x', '\n'] 0 [['x', '\n']] (by decide)
  refine ⟨?_, h.2.1⟩
  rw [h.1]
  decide

/-- C9: no whitespace-only (or empty) line is ever emitted: every line
returned by the initial-window reader and every line event produced by a
delta read — in the poller and in the watcher alike — has non-whitespace
content. -/
theorem whitespace_only_lines_dropped :
    (∀ (content : List Char) (n : Nat) (l : List Char),
        l ∈ readLastLines content n → isWsOnly l = false) ∧
    (∀ (contentOpt : Option (List Char)) (pos : Nat) (rb : ReadBehavior)
        (l : List Char),
        Event.line l ∈ (checkForNewContent contentOpt pos rb).events →
          isWsOnly l = false) ∧
    (∀ (contentOpt : Option (List Char)) (storedPos : Option Nat)
        (rb : ReadBehavior) (l : List Char),
        Event.line l ∈ (handleFileChange contentOpt storedPos rb).events →
          isWsOnly l = false) := by
  refine ⟨?_, ?_, ?_⟩
  · intro content n l hl
    unfold readLastLines at hl
    split at hl
    · simp at hl
    · have hmem := sliceNeg_subset _ _ hl
      have := (List.mem_filter.mp hmem).2
      simpa using this
  · intro contentOpt pos rb l hl
    match contentOpt with
    | none => simp [checkForNewContent] at hl
    | some content =>
      simp only [checkForNewContent] at hl
      split at hl
      · exact readNewContent_line_nonws rb l hl
      · split at hl
        · exact readNewContent_line_nonws rb l hl
        · simp at hl
  · intro contentOpt storedPos rb l hl
    match contentOpt with
    | none => simp [handleFileChange] at hl
    | some content =>
      simp only [handleFileChange] at hl
      split at hl
      · exact readNewContent_line_nonws rb l hl
      · split at hl
        · exact readNewContent_line_nonws rb l hl
        · simp at hl

/-- Witness for C9: concrete lines surviving each of the three paths are
non-whitespace. -/
theorem whitespace_only_lines_dropped_witness :
    isWsOnly ['x'] = false ∧ isWsOnly ['y'] = false ∧ isWsOnly ['z'] = false :=
  ⟨whitespace_only_lines_dropped.1 ['x', '\n'] 1 ['x'] (by decide),
   whitespace_only_lines_dropped.2.1 (some ['y', '\n', 'q']) 0
     (ReadBehavior.success [['y', '\n', 'q']]) ['y'] (by decide),
   whitespace_only_lines_dropped.2.2 (some ['z', '\n', 'q']) (some 0)
     (ReadBehavior.success [['z', '\n', 'q']]) ['z'] (by decide)⟩

/-- C10 counterexample: the `LogWatcher` constructor performs no
deduplication, so a watcher built with the same absolute path twice has a
tracked-file list that contains that path twice, and `getFiles` returns
two entries for it — the list is not always duplicate-free. -/
theorem mkWatcher_keeps_duplicates :
    (mkWatcher id ["/a", "/a"]).files = ["/a", "/a"] ∧
    ¬ (mkWatcher id ["/a", "/a"]).files.Nodup ∧
    (getFiles (mkWatcher id ["/a", "/a"])).count "/a" = 2 := by
  refine ⟨by decide, by decide, by decide⟩

/-- C10 (amended): from any watcher state whose tracked-file list is
duplicate-free (the constructor does not guarantee this, see the
counterexample), `addFile` and `removeFile` preserve freedom from
duplicates; `addFile` on an already-tracked path leaves the state — list
and watch set — unchanged; `removeFile` on an untracked path is a no-op;
and `getFiles` then returns at most one entry per tracked path. -/
theorem watcher_tracked_files_nodup (r : String → String) (s : WatcherState)
    (p : String) :
    (s.files.Nodup → (addFile r s p).files.Nodup) ∧
    (s.files.Nodup → (removeFile r s p).files.Nodup) ∧
    (r p ∈ s.files → addFile r s p = s) ∧
    (r p ∉ s.files → removeFile r s p = s) ∧
    (s.files.Nodup → ∀ q, (getFiles s).count q ≤ 1) := by
  refine ⟨?_, ?_, ?_, ?_, ?_⟩
  · intro h
    simp only [addFile]
    split
    · exact h
    · rename_i hc
      have hnm : r p ∉ s.files := by
        intro hm
        exact hc (List.elem_iff.mpr hm)
      simp [List.nodup_append, h, hnm]
  · intro h
    simp only [removeFile]
    split
    · exact (List.erase_sublist _ _).nodup h
    · exact h
  · intro h
    simp only [addFile]
    rw [if_pos (List.elem_iff.mpr h)]
  · intro h
    simp only [removeFile]
    rw [if_neg (fun hc => h (List.elem_iff.mp hc))]
  · intro h q
    exact List.nodup_iff_count_le_one.mp h q

/-- Witness for the amended C10 on a one-file watcher. -/
theorem watcher_tracked_files_nodup_witness :
    (addFile id (mkWatcher id ["/a"]) "/b").files.Nodup ∧
    addFile id (mkWatcher id ["/a"]) "/a" = mkWatcher id ["/a"] ∧
    removeFile id (mkWatcher id ["/a"]) "/b" = mkWatcher id ["/a"] ∧
    (getFiles (mkWatcher id ["/a"])).count "/a" ≤ 1 :=
  ⟨(watcher_tracked_files_nodup id (mkWatcher id ["/a"]) "/b").1 (by decide),
   (watcher_tracked_files_nodup id (mkWatcher id ["/a"]) "/a").2.2.1 (by decide),
   (watcher_tracked_files_nodup id (mkWatcher id ["/a"]) "/b").2.2.2.1 (by decide),
   (watcher_tracked_files_nodup id (mkWatcher id ["/a"]) "/a").2.2.2.2 (by decide) "/a"⟩
